import Mathlib

/-!
Shallow embedding of the promql-engine execution core:
the leaf scan operator (`src/execution/scan/vector_selector.go`) and the
binary-join operator (`src/execution/binary/vector.go`).

Modelling conventions:
* `int64` millisecond timestamps become `Int`; series ordinals and `uint64`
  signatures become `Nat` (no arithmetic overflows these claims depend on).
* `float64` sample values become `FloatVal`, which distinguishes the
  Prometheus stale-marker NaN from ordinary values; none of the claims under
  study depend on floating-point arithmetic, only on staleness.
* Label-set hashes (`HashForLabels` / `HashWithoutLabels` / series
  signatures) are modelled as the hashed label subset itself, i.e. a perfect
  hash.  Grouping behaviour then depends exactly on equality of the hashed
  subset, which is the documented intent of the hashing.
* Go slices become `List`; an out-of-bounds slice write (a Go panic) is
  modelled by `Option`-valued updates returning `none`.
* Go maps (used transiently during join construction) become association
  lists; iteration order is the list order, and the theorems below either do
  not depend on the order or quantify over the inputs.
-/

namespace PromqlEngine

/-- A single key/value label pair (`labels.Label`). -/
structure Label where
  name : String
  value : String
deriving DecidableEq, Repr

/-- `labels.Labels` is a name-sorted slice of label pairs. -/
abbrev Labels := List Label

/-- Lexicographic string comparison by code point (for ASCII label names
this coincides with Go's byte-wise string order). -/
def charListLt : List Char → List Char → Bool
  | [], [] => false
  | [], _ :: _ => true
  | _ :: _, [] => false
  | a :: as, b :: bs =>
      if a.toNat < b.toNat then true
      else if b.toNat < a.toNat then false
      else charListLt as bs

def strLt (a b : String) : Bool := charListLt a.data b.data

/-- The sortedness invariant of `labels.Labels`: strictly ascending names. -/
def labelsSorted : Labels → Bool
  | [] => true
  | [_] => true
  | a :: b :: rest => strLt a.name b.name && labelsSorted (b :: rest)

/-- A `float64` sample value, with the Prometheus stale-marker NaN kept
distinguishable.  Ordinary numeric values are represented exactly. -/
inductive FloatVal where
  | staleNaN
  | val (x : Int)
deriving DecidableEq, Repr

/-- `value.IsStaleNaN`. -/
def IsStaleNaN : FloatVal → Bool
  | .staleNaN => true
  | .val _ => false

/-- One raw sample of a series: millisecond timestamp plus value. -/
structure Sample where
  t : Int
  v : FloatVal
deriving DecidableEq, Repr

/-- Modelled from the spec: `model.StepVector` (the `model` package is not
part of the two source files): one timestamp plus parallel arrays of series
IDs and values. -/
structure StepVector where
  t : Int
  SampleIDs : List Nat
  Samples : List FloatVal
deriving DecidableEq, Repr

/-- Modelled from the spec: `VectorPool.GetStepVector` hands out a step
vector carrying the requested timestamp and empty sample arrays (recycled
backing arrays are reset, so allocation reuse is semantically invisible). -/
def getStepVector (t : Int) : StepVector := ⟨t, [], []⟩

/-! ## The memoized sample iterator, `Seek`/`At`/`PeekPrev`

`storage.MemoizedSeriesIterator` walks a timestamp-sorted series.  After
`Seek(refTime)`, `At` is the first sample at or after `refTime` and
`PeekPrev` is the most recent sample strictly before that seek position
(when the previous sample is older than the memoization window
`lookbackDelta` the iterator forgets it, but `selectPoint` rejects such
samples anyway, so the embedding can keep it). -/

/-- First sample at or after `refTime` (result of `Seek` + `At`). -/
def seekSample (samples : List Sample) (refTime : Int) : Option Sample :=
  samples.find? (fun s => refTime ≤ s.t)

/-- Most recent sample strictly before `refTime` (result of `PeekPrev`
after seeking to `refTime` on a sorted series). -/
def peekPrevSample (samples : List Sample) (refTime : Int) : Option Sample :=
  (samples.filter (fun s => s.t < refTime)).getLast?

/-- `selectPoint` from `vector_selector.go`: lookback/offset/staleness-aware
point selection for one (series, step) pair. -/
def selectPoint (samples : List Sample) (ts lookbackDelta offset : Int) :
    Option (Int × FloatVal) :=
  let refTime := ts - offset
  let afterPrev : Option Sample :=
    match seekSample samples refTime with
    | some s =>
        if refTime < s.t then
          match peekPrevSample samples refTime with
          | some p => if p.t < refTime - lookbackDelta then none else some p
          | none => none
        else some s
    | none =>
        match peekPrevSample samples refTime with
        | some p => if p.t < refTime - lookbackDelta then none else some p
        | none => none
  match afterPrev with
  | none => none
  | some c => if IsStaleNaN c.v then none else some (c.t, c.v)

/-- The candidate sample as the spec describes it: the sample found by
seeking to the first sample at or after `refTime` if its timestamp equals
`refTime`, otherwise the most recent sample strictly before the seek
position. -/
def specCandidate (samples : List Sample) (refTime : Int) : Option Sample :=
  match seekSample samples refTime with
  | some s => if s.t = refTime then some s else peekPrevSample samples refTime
  | none => peekPrevSample samples refTime

/-- C3: `selectPoint` returns a value exactly when the spec's candidate
sample exists, lies within the lookback window, and is not stale. -/
theorem selectPoint_spec (samples : List Sample) (ts lookbackDelta offset : Int)
    (hlb : 0 ≤ lookbackDelta) :
    selectPoint samples ts lookbackDelta offset =
      match specCandidate samples (ts - offset) with
      | some c =>
          if ts - offset - lookbackDelta ≤ c.t ∧ IsStaleNaN c.v = false then
            some (c.t, c.v)
          else none
      | none => none := by
  unfold selectPoint specCandidate
  dsimp only
  cases hseek : seekSample samples (ts - offset) with
  | none =>
      dsimp only
      cases hprev : peekPrevSample samples (ts - offset) with
      | none => rfl
      | some p =>
          dsimp only
          by_cases hout : p.t < ts - offset - lookbackDelta
          · rw [if_pos hout, if_neg (fun h => absurd h.1 (by omega))]
          · rw [if_neg hout]
            dsimp only
            by_cases hstale : IsStaleNaN p.v
            · rw [if_pos hstale, if_neg (fun h => by simp [hstale] at h)]
            · rw [if_neg hstale,
                if_pos ⟨by omega, by simpa using hstale⟩]
  | some s =>
      dsimp only
      have hs : ts - offset ≤ s.t := by
        have := List.find?_some hseek
        simpa [seekSample] using this
      by_cases hgt : ts - offset < s.t
      · have hne : ¬ s.t = ts - offset := by omega
        rw [if_pos hgt, if_neg hne]
        cases hprev : peekPrevSample samples (ts - offset) with
        | none => rfl
        | some p =>
            dsimp only
            by_cases hout : p.t < ts - offset - lookbackDelta
            · rw [if_pos hout, if_neg (fun h => absurd h.1 (by omega))]
            · rw [if_neg hout]
              dsimp only
              by_cases hstale : IsStaleNaN p.v
              · rw [if_pos hstale, if_neg (fun h => by simp [hstale] at h)]
              · rw [if_neg hstale,
                  if_pos ⟨by omega, by simpa using hstale⟩]
      · have heq : s.t = ts - offset := by omega
        rw [if_neg hgt, if_pos heq]
        dsimp only
        by_cases hstale : IsStaleNaN s.v
        · rw [if_pos hstale, if_neg (fun h => by simp [hstale] at h)]
        · rw [if_neg hstale,
            if_pos ⟨by omega, by simpa using hstale⟩]

/-- C3 witness: a concrete instant-query style lookup — sole sample at
t = -100000 with lookback 300000 at evaluation time 0 — evaluated through
`selectPoint_spec`. -/
theorem selectPoint_spec_witness :
    (0 : Int) ≤ 300000 ∧
      selectPoint [⟨-100000, .val 5⟩] 0 300000 0 =
        (match specCandidate [⟨-100000, .val 5⟩] (0 - 0) with
        | some c =>
            if (0 : Int) - 0 - 300000 ≤ c.t ∧ IsStaleNaN c.v = false then
              some (c.t, c.v)
            else none
        | none => none) :=
  ⟨by norm_num, selectPoint_spec [⟨-100000, .val 5⟩] 0 300000 0 (by norm_num)⟩

/-! ## The scan operator (`vectorSelector`) -/

/-- One per-series scanner built by `loadSeries`: the precomputed series
signature plus the (memoized) sample iterator's underlying sorted samples. -/
structure Scanner where
  signature : Nat
  samples : List Sample

/-- One entry of the series-selection collaborator's `GetSeries` result:
labels, signature and the sample iterator contents. -/
structure SeriesRef where
  lbls : Labels
  signature : Nat
  samples : List Sample

/-- The mutable fields of `vectorSelector`.  The `sync.Once` guard becomes
the `onceDone` flag (the spec's serial single-consumer model makes the
mutex aspect invisible); the local `err` of `loadSeries` is exactly the
Go local, so it is NOT part of the state. -/
structure ScanState where
  onceDone : Bool
  scanners : List Scanner
  series : List Labels
  numSteps : Nat
  mint : Int
  maxt : Int
  lookbackDelta : Int
  step : Int
  currentStep : Int
  offset : Int

/-- `NewVectorSelector`: the scanning cursor starts at the query start. -/
def newVectorSelector (mint maxt step lookbackDelta offset : Int)
    (numSteps : Nat) : ScanState :=
  { onceDone := false, scanners := [], series := [], numSteps := numSteps,
    mint := mint, maxt := maxt, lookbackDelta := lookbackDelta, step := step,
    currentStep := mint, offset := offset }

/-- `loadSeries`: the one-time lazy initialization.  `res` is the outcome of
the external `GetSeries` call.  Note the Go pattern: `err` is a local of the
call, assigned only inside `once.Do`, so when the guard has already fired
the function returns `nil` regardless of how initialization went. -/
def loadSeries (res : Except String (List SeriesRef)) (s : ScanState) :
    Except String Unit × ScanState :=
  if s.onceDone then (.ok (), s)
  else
    match res with
    | .error e => (.error e, { s with onceDone := true })
    | .ok refs =>
        (.ok (),
          { s with
              onceDone := true
              scanners := refs.map (fun r => ⟨r.signature, r.samples⟩)
              series := refs.map (fun r => r.lbls) })

/-- `vectorSelector.Series`. -/
def seriesCall (res : Except String (List SeriesRef)) (s : ScanState) :
    Except String (List Labels) × ScanState :=
  match loadSeries res s with
  | (.error e, s1) => (.error e, s1)
  | (.ok _, s1) => (.ok s1.series, s1)

/-- In-place update of slice index `i` (`vectors[currStep] = ...`);
off-the-end indices leave the list unchanged (`scanNext` only ever updates
indices it has just ensured exist). -/
def modifyIdx {α : Type} : List α → Nat → (α → α) → List α
  | [], _, _ => []
  | a :: l, 0, f => f a :: l
  | a :: l, n+1, f => a :: modifyIdx l n f

/-- Appending one `(signature, value)` pair to a step vector's parallel
arrays. -/
def appendSample (sig : Nat) (v : FloatVal) (sv : StepVector) : StepVector :=
  { sv with SampleIDs := sv.SampleIDs ++ [sig], Samples := sv.Samples ++ [v] }

/-- `if len(vectors) <= currStep { vectors = append(vectors, pool.GetStepVector(seriesTs)) }`. -/
def ensureStep (vectors : List StepVector) (currStep : Nat) (seriesTs : Int) :
    List StepVector :=
  if vectors.length ≤ currStep then vectors ++ [getStepVector seriesTs]
  else vectors

/-- The `selectPoint` call plus the conditional write of `(signature, value)`
into `vectors[currStep]`. -/
def writeSample (sc : Scanner) (lookbackDelta offset : Int)
    (vectors : List StepVector) (currStep : Nat) (seriesTs : Int) :
    List StepVector :=
  match selectPoint sc.samples seriesTs lookbackDelta offset with
  | some (_, v) => modifyIdx vectors currStep (appendSample sc.signature v)
  | none => vectors

/-- The inner per-series loop of `vectorSelector.Next`:
`for currStep := 0; currStep < numSteps && seriesTs <= maxt; currStep++`.
The fuel argument `rem` counts the remaining iterations
(`numSteps - currStep`), so the two loop conditions match the Go loop. -/
def scanSeriesSteps (maxt lookbackDelta offset step : Int) (sc : Scanner) :
    Nat → Nat → Int → List StepVector → List StepVector
  | 0, _, _, vectors => vectors
  | rem+1, currStep, seriesTs, vectors =>
      if seriesTs ≤ maxt then
        scanSeriesSteps maxt lookbackDelta offset step sc rem (currStep + 1)
          (seriesTs + step)
          (writeSample sc lookbackDelta offset
            (ensureStep vectors currStep seriesTs) currStep seriesTs)
      else vectors

/-- `vectorSelector.Next`. -/
def scanNext (res : Except String (List SeriesRef)) (s : ScanState) :
    Except String (List StepVector) × ScanState :=
  if s.maxt < s.currentStep then (.ok [], s)
  else
    match loadSeries res s with
    | (.error e, s1) => (.error e, s1)
    | (.ok _, s1) =>
        let vectors := s1.scanners.foldl
          (fun vectors sc =>
            scanSeriesSteps s1.maxt s1.lookbackDelta s1.offset s1.step sc
              s1.numSteps 0 s1.currentStep vectors) []
        let step1 : Int := if s1.step = 0 then 1 else s1.step
        (.ok vectors,
          { s1 with step := step1,
                    currentStep := s1.currentStep + step1 * s1.numSteps })

/-- The state transition of one `Next` call. -/
def scanAdvance (res : Except String (List SeriesRef)) (s : ScanState) :
    ScanState :=
  (scanNext res s).2

/-! ## The binary operator's lazy initialization guard and `Next` loop -/

/-- The once-guarded part of `vectorOperator`'s state. -/
structure BinInitState where
  onceDone : Bool
  series : List Labels

/-- `vectorOperator.Series`: `once.Do(initOutputs)` with the same local-err
pattern as the scan operator.  `initRes` abstracts the outcome of
`initOutputs` (a child error, or the computed output series set). -/
def binarySeries (initRes : Except String (List Labels)) (s : BinInitState) :
    Except String (List Labels) × BinInitState :=
  if s.onceDone then (.ok s.series, s)
  else
    match initRes with
    | .error e => (.error e, { s with onceDone := true })
    | .ok out => (.ok out, { s with onceDone := true, series := out })

/-- The transcription loop of `vectorOperator.Next`: pair the two children's
batches by index, skipping lhs surplus; returns the output batch plus the
lists of child step vectors released back to the lhs/rhs pools.
`exec` abstracts `table.execBinaryOperation` (defined outside the two
source files). -/
def binaryNextLoopAux (exec : StepVector → StepVector → StepVector)
    (rhs : List StepVector) :
    Nat → List StepVector →
    List StepVector × List StepVector × List StepVector →
    List StepVector × List StepVector × List StepVector
  | _, [], acc => acc
  | i, vector :: restLhs, (batch, lhsPut, rhsPut) =>
      match rhs.get? i with
      | some rv =>
          binaryNextLoopAux exec rhs (i+1) restLhs
            (batch ++ [exec vector rv], lhsPut ++ [vector], rhsPut ++ [rv])
      | none =>
          binaryNextLoopAux exec rhs (i+1) restLhs
            (batch, lhsPut ++ [vector], rhsPut)

/-- `for i, vector := range lhs { if i < len(rhs) { ... } ... }`. -/
def binaryNextLoop (exec : StepVector → StepVector → StepVector)
    (lhs rhs : List StepVector) :
    List StepVector × List StepVector × List StepVector :=
  binaryNextLoopAux exec rhs 0 lhs ([], [], [])

/-- `vectorOperator.Next`, with the two children modelled as the streams of
results their successive `Next` calls produce.  The returned streams are
what remains unconsumed after this call.  `initRes` abstracts the
`once.Do(initOutputs)` outcome for the call that fires it. -/
def binaryNextStream (exec : StepVector → StepVector → StepVector)
    (initRes : Except String Unit)
    (lhsStream rhsStream : List (Except String (List StepVector))) :
    Except String (List StepVector) ×
      List (Except String (List StepVector)) ×
      List (Except String (List StepVector)) :=
  match lhsStream.headD (.ok []) with
  | .error e => (.error e, lhsStream.tail, rhsStream)
  | .ok lhs =>
      match rhsStream.headD (.ok []) with
      | .error e => (.error e, lhsStream.tail, rhsStream.tail)
      | .ok rhs =>
          if lhs.length = 0 ∨ rhs.length = 0 then
            (.ok [], lhsStream.tail, rhsStream.tail)
          else
            match initRes with
            | .error e => (.error e, lhsStream.tail, rhsStream.tail)
            | .ok _ =>
                (.ok (binaryNextLoop exec lhs rhs).1,
                  lhsStream.tail, rhsStream.tail)

/-- A failing series-resolution collaborator. -/
def errStorage : Except String (List SeriesRef) := .error "boom"

/-- A small scan operator as freshly constructed. -/
def scanS0 : ScanState := newVectorSelector 0 100 10 300000 0 10

/-- C1: evaluation of the once-guarded initialization at a failing storage
collaborator.  The first `Series` call surfaces the error, but the second
`Series` call and the following `Next` call return `nil` errors with an
empty series set / batch, because `sync.Once` never re-runs the guarded
function and the captured `err` is a local of the first call.  The binary
operator's `Series` shows the same pattern.  This contradicts the claim
that the same error is returned on every subsequent call. -/
theorem once_error_swallowed :
    (seriesCall errStorage scanS0).1 = .error "boom" ∧
    (seriesCall errStorage (seriesCall errStorage scanS0).2).1 = .ok [] ∧
    (scanNext errStorage (seriesCall errStorage scanS0).2).1 = .ok [] ∧
    (binarySeries (.error "boom") ⟨false, []⟩).1 = .error "boom" ∧
    (binarySeries (.error "boom")
        (binarySeries (.error "boom") ⟨false, []⟩).2).1 = .ok [] :=
  ⟨rfl, rfl, rfl, rfl, rfl⟩

/-- Exhaustion of the scan: once the cursor has passed the end time, `Next`
returns an empty batch with nil error and leaves the state untouched. -/
theorem scanNext_past_end (res : Except String (List SeriesRef))
    (s : ScanState) (h : s.maxt < s.currentStep) :
    scanNext res s = (.ok [], s) := by
  unfold scanNext
  rw [if_pos h]

/-- C5: exhaustion is an empty result with nil error, never an error value:
the scan's `Next` once the cursor passed the end time, and the binary
operator's `Next` whenever either child returns an empty batch — having
consumed exactly one batch from each child stream, neither pulling further
from nor draining the other side. -/
theorem exhaustion_empty_nil_error :
    (∀ (res : Except String (List SeriesRef)) (s : ScanState),
        s.maxt < s.currentStep → scanNext res s = (.ok [], s)) ∧
    (∀ (exec : StepVector → StepVector → StepVector)
        (initRes : Except String Unit)
        (ls rs : List (Except String (List StepVector)))
        (lhs rhs : List StepVector),
        ls.headD (.ok []) = .ok lhs → rs.headD (.ok []) = .ok rhs →
        lhs = [] ∨ rhs = [] →
        binaryNextStream exec initRes ls rs = (.ok [], ls.tail, rs.tail)) := by
  constructor
  · exact scanNext_past_end
  · intro exec initRes ls rs lhs rhs hl hr hempty
    unfold binaryNextStream
    rw [hl, hr]
    dsimp only
    rw [if_pos]
    rcases hempty with h | h <;> simp [h]

/-- C5 witness: a concrete exhausted scan state and a concrete empty lhs
batch against a non-empty rhs batch. -/
theorem exhaustion_empty_nil_error_witness :
    scanNext errStorage (newVectorSelector 5 0 1 0 0 1) =
      (.ok [], newVectorSelector 5 0 1 0 0 1) ∧
    binaryNextStream (fun a _ => a) (.ok ())
        [.ok []] [.ok [getStepVector 0]] = (.ok [], [], []) :=
  ⟨exhaustion_empty_nil_error.1 errStorage (newVectorSelector 5 0 1 0 0 1)
      (by decide),
    exhaustion_empty_nil_error.2 (fun a _ => a) (.ok ())
      [.ok []] [.ok [getStepVector 0]] [] [getStepVector 0] rfl rfl
      (Or.inl rfl)⟩

/-! ## C7: step-index alignment of scan batches -/

theorem modifyIdx_length {α : Type} (l : List α) (i : Nat) (f : α → α) :
    (modifyIdx l i f).length = l.length := by
  induction l generalizing i with
  | nil => rfl
  | cons a l ih =>
      cases i with
      | zero => rfl
      | succ n => simp [modifyIdx, ih]

theorem modifyIdx_get? {α : Type} (l : List α) (i : Nat) (f : α → α) (j : Nat) :
    (modifyIdx l i f).get? j =
      if j = i then (l.get? j).map f else l.get? j := by
  induction l generalizing i j with
  | nil => simp [modifyIdx]
  | cons a l ih =>
      cases i with
      | zero =>
          cases j with
          | zero => simp [modifyIdx]
          | succ m => simp [modifyIdx]
      | succ n =>
          cases j with
          | zero => simp [modifyIdx]
          | succ m => simpa [modifyIdx] using ih n m

/-- Timestamp alignment of a batch to an arithmetic step grid. -/
def TsAligned (base step : Int) (l : List StepVector) : Prop :=
  ∀ i sv, l.get? i = some sv → sv.t = base + (i : Int) * step

theorem tsAligned_nil (base step : Int) : TsAligned base step [] := by
  intro i sv h
  simp at h

theorem tsAligned_append (base step : Int) (l : List StepVector)
    (x : StepVector) (h : TsAligned base step l)
    (hx : x.t = base + (l.length : Int) * step) :
    TsAligned base step (l ++ [x]) := by
  intro i sv hget
  by_cases hi : i < l.length
  · exact h i sv (by rwa [List.get?_append hi] at hget)
  · rcases (by omega : i = l.length ∨ l.length + 1 ≤ i) with heq | hgt
    · subst heq
      rw [List.get?_concat_length] at hget
      cases hget
      exact hx
    · rw [List.get?_eq_none.2 (by simp; omega)] at hget
      cases hget

theorem tsAligned_modifyIdx (base step : Int) (l : List StepVector) (i : Nat)
    (sig : Nat) (v : FloatVal) (h : TsAligned base step l) :
    TsAligned base step (modifyIdx l i (appendSample sig v)) := by
  intro j sv hget
  rw [modifyIdx_get? l i _ j] at hget
  by_cases hj : j = i
  · rw [if_pos hj] at hget
    cases hl : l.get? j with
    | none => rw [hl] at hget; cases hget
    | some sv0 =>
        rw [hl, Option.map_some'] at hget
        injection hget with hget
        subst hget
        simpa [appendSample] using h j sv0 hl
  · rw [if_neg hj] at hget
    exact h j sv hget

theorem ensureStep_length (vectors : List StepVector) (currStep : Nat)
    (seriesTs : Int) (h : currStep ≤ vectors.length) :
    currStep + 1 ≤ (ensureStep vectors currStep seriesTs).length := by
  unfold ensureStep
  split
  · simp
    omega
  · omega

theorem ensureStep_aligned (base step : Int) (vectors : List StepVector)
    (currStep : Nat) (seriesTs : Int)
    (hts : seriesTs = base + (currStep : Int) * step)
    (hlen : currStep ≤ vectors.length)
    (h : TsAligned base step vectors) :
    TsAligned base step (ensureStep vectors currStep seriesTs) := by
  unfold ensureStep
  split
  · apply tsAligned_append base step vectors _ h
    have : vectors.length = currStep := by omega
    rw [this]
    simpa [getStepVector] using hts
  · exact h

theorem writeSample_length (sc : Scanner) (lookbackDelta offset : Int)
    (vectors : List StepVector) (currStep : Nat) (seriesTs : Int) :
    (writeSample sc lookbackDelta offset vectors currStep seriesTs).length =
      vectors.length := by
  unfold writeSample
  split
  · apply modifyIdx_length
  · rfl

theorem writeSample_aligned (base step : Int) (sc : Scanner)
    (lookbackDelta offset : Int) (vectors : List StepVector) (currStep : Nat)
    (seriesTs : Int) (h : TsAligned base step vectors) :
    TsAligned base step
      (writeSample sc lookbackDelta offset vectors currStep seriesTs) := by
  unfold writeSample
  split
  · apply tsAligned_modifyIdx _ _ _ _ _ _ h
  · exact h

theorem scanSeriesSteps_aligned (maxt lookbackDelta offset step : Int)
    (sc : Scanner) (base : Int) (rem : Nat) :
    ∀ (currStep : Nat) (seriesTs : Int) (vectors : List StepVector),
      seriesTs = base + (currStep : Int) * step →
      currStep ≤ vectors.length →
      TsAligned base step vectors →
      TsAligned base step
        (scanSeriesSteps maxt lookbackDelta offset step sc rem currStep
          seriesTs vectors) := by
  induction rem with
  | zero =>
      intro currStep seriesTs vectors _ _ h
      exact h
  | succ rem ih =>
      intro currStep seriesTs vectors hts hlen h
      unfold scanSeriesSteps
      split
      · apply ih (currStep + 1) (seriesTs + step)
        · rw [hts]
          push_cast
          ring
        · rw [writeSample_length]
          exact ensureStep_length vectors currStep seriesTs hlen
        · exact writeSample_aligned base step sc lookbackDelta offset _
            currStep seriesTs
            (ensureStep_aligned base step vectors currStep seriesTs hts hlen h)
      · exact h

theorem scanFold_aligned (maxt lookbackDelta offset step base : Int)
    (numSteps : Nat) (scs : List Scanner) :
    ∀ (vectors : List StepVector),
      TsAligned base step vectors →
      TsAligned base step
        (scs.foldl
          (fun v sc =>
            scanSeriesSteps maxt lookbackDelta offset step sc numSteps 0 base v)
          vectors) := by
  induction scs with
  | nil =>
      intro v h
      exact h
  | cons sc scs ih =>
      intro v h
      exact ih _
        (scanSeriesSteps_aligned maxt lookbackDelta offset step sc base
          numSteps 0 base v (by simp) (by omega) h)

/-- `loadSeries` only fills in the scanners and series; the query window
fields are untouched. -/
theorem loadSeries_preserves (res : Except String (List SeriesRef))
    (s : ScanState) :
    (loadSeries res s).2.currentStep = s.currentStep ∧
    (loadSeries res s).2.step = s.step ∧
    (loadSeries res s).2.maxt = s.maxt ∧
    (loadSeries res s).2.numSteps = s.numSteps ∧
    (loadSeries res s).2.lookbackDelta = s.lookbackDelta ∧
    (loadSeries res s).2.offset = s.offset := by
  unfold loadSeries
  split
  · exact ⟨rfl, rfl, rfl, rfl, rfl, rfl⟩
  · split <;> exact ⟨rfl, rfl, rfl, rfl, rfl, rfl⟩

/-- C7: every batch returned by the scan's `Next` is step-index aligned —
entry `i` carries timestamp `currentStep + i*step` (with `currentStep` and
`step` as they were when the call began), and for an instant query
(`step = 0`) every entry carries the fixed timestamp `currentStep`. -/
theorem scan_batch_step_aligned (res : Except String (List SeriesRef))
    (s : ScanState) (batch : List StepVector) (s2 : ScanState)
    (h : scanNext res s = (.ok batch, s2)) (i : Nat) (sv : StepVector)
    (hget : batch.get? i = some sv) :
    sv.t = s.currentStep + (i : Int) * s.step ∧
    (s.step = 0 → sv.t = s.currentStep) := by
  have main : sv.t = s.currentStep + (i : Int) * s.step := by
    unfold scanNext at h
    split at h
    · injection h with h1 _
      injection h1 with h1
      subst h1
      simp at hget
    · revert h
      cases hload : loadSeries res s with
      | mk r s1 =>
          cases r with
          | error e =>
              intro h
              dsimp only at h
              injection h with h1 _
              cases h1
          | ok u =>
              intro h
              dsimp only at h
              injection h with h1 _
              have hbatch :
                  s1.scanners.foldl
                    (fun vectors sc =>
                      scanSeriesSteps s1.maxt s1.lookbackDelta s1.offset
                        s1.step sc s1.numSteps 0 s1.currentStep vectors)
                    [] = batch := by
                injection h1
              have hpres := loadSeries_preserves res s
              rw [hload] at hpres
              have haligned :=
                scanFold_aligned s1.maxt s1.lookbackDelta s1.offset s1.step
                  s1.currentStep s1.numSteps s1.scanners []
                  (tsAligned_nil _ _)
              rw [hbatch] at haligned
              have := haligned i sv hget
              rw [this, hpres.1, hpres.2.1]
  refine ⟨main, fun hstep => ?_⟩
  rw [main, hstep, mul_zero, add_zero]

/-- A concrete one-series scan operator after initialization. -/
def alignedScanState : ScanState :=
  { onceDone := true, scanners := [⟨7, [⟨0, .val 1⟩]⟩],
    series := [[⟨"__name__", "a"⟩]], numSteps := 2, mint := 0, maxt := 10,
    lookbackDelta := 100, step := 5, currentStep := 0, offset := 0 }

/-- C7 witness: a two-step range batch over one series, checked at batch
index 1. -/
theorem scan_batch_step_aligned_witness :
    scanNext (.ok []) alignedScanState =
      (.ok [⟨0, [7], [.val 1]⟩, ⟨5, [7], [.val 1]⟩],
        { alignedScanState with currentStep := 10 }) ∧
    (([⟨0, [7], [.val 1]⟩, ⟨5, [7], [.val 1]⟩] : List StepVector).get? 1 =
      some ⟨5, [7], [.val 1]⟩) ∧
    ((⟨5, [7], [.val 1]⟩ : StepVector).t =
        alignedScanState.currentStep +
          ((1 : Nat) : Int) * alignedScanState.step ∧
      (alignedScanState.step = 0 →
        (⟨5, [7], [.val 1]⟩ : StepVector).t = alignedScanState.currentStep)) :=
  ⟨rfl, rfl,
    scan_batch_step_aligned (.ok []) alignedScanState
      [⟨0, [7], [.val 1]⟩, ⟨5, [7], [.val 1]⟩]
      { alignedScanState with currentStep := 10 } rfl 1
      ⟨5, [7], [.val 1]⟩ rfl⟩

/-! ## C9: termination of the scan -/

/-- What one `Next` call does to the state when the scan is not yet
exhausted: either the failed-initialization path (only the once flag
flips), or the cursor advances by the (normalized) step times the batch
width. -/
theorem scanAdvance_cases (res : Except String (List SeriesRef))
    (s : ScanState) (h : ¬ s.maxt < s.currentStep) :
    (scanAdvance res s = { s with onceDone := true } ∧ s.onceDone = false) ∨
    ((scanAdvance res s).currentStep =
        s.currentStep + (if s.step = 0 then 1 else s.step) * s.numSteps ∧
      (scanAdvance res s).step = (if s.step = 0 then 1 else s.step) ∧
      (scanAdvance res s).maxt = s.maxt ∧
      (scanAdvance res s).numSteps = s.numSteps ∧
      (scanAdvance res s).onceDone = true) := by
  unfold scanAdvance scanNext
  rw [if_neg h]
  cases hd : s.onceDone with
  | true =>
      right
      unfold loadSeries
      rw [if_pos hd]
      exact ⟨rfl, rfl, rfl, rfl, hd⟩
  | false =>
      cases res with
      | error e =>
          left
          unfold loadSeries
          rw [if_neg (by simp [hd])]
          exact ⟨rfl, rfl⟩
      | ok refs =>
          right
          unfold loadSeries
          rw [if_neg (by simp [hd])]
          exact ⟨rfl, rfl, rfl, rfl, rfl⟩

/-- Decreasing measure for repeated `Next` calls: remaining steps (twice)
plus one for a pending initialization. -/
def scanMeasure (s : ScanState) : Nat :=
  2 * (s.maxt + 1 - s.currentStep).toNat + (if s.onceDone then 0 else 1)

theorem scan_terminates_aux (res : Except String (List SeriesRef)) :
    ∀ (m : Nat) (s : ScanState), scanMeasure s ≤ m → 0 ≤ s.step →
      1 ≤ s.numSteps →
      ∃ n, ∀ k, n ≤ k →
        (Nat.iterate (scanAdvance res) k s).maxt <
            (Nat.iterate (scanAdvance res) k s).currentStep ∧
        (scanNext res (Nat.iterate (scanAdvance res) k s)).1 = .ok [] := by
  intro m
  induction m with
  | zero =>
      intro s hm hstep hns
      have htn : 2 * (s.maxt + 1 - s.currentStep).toNat ≤ 0 :=
        le_trans (Nat.le_add_right _ _) hm
      have hex : s.maxt < s.currentStep := by omega
      refine ⟨0, fun k _ => ?_⟩
      have hfix : scanAdvance res s = s := by
        unfold scanAdvance
        rw [scanNext_past_end res s hex]
      rw [Function.iterate_fixed hfix k]
      exact ⟨hex, by rw [scanNext_past_end res s hex]⟩
  | succ m ih =>
      intro s hm hstep hns
      by_cases hex : s.maxt < s.currentStep
      · refine ⟨0, fun k _ => ?_⟩
        have hfix : scanAdvance res s = s := by
          unfold scanAdvance
          rw [scanNext_past_end res s hex]
        rw [Function.iterate_fixed hfix k]
        exact ⟨hex, by rw [scanNext_past_end res s hex]⟩
      · have hstep1 : 1 ≤ (if s.step = 0 then 1 else s.step) := by
          split
          · omega
          · omega
        have hnext : ∃ n, ∀ k, n ≤ k →
            (Nat.iterate (scanAdvance res) k (scanAdvance res s)).maxt <
                (Nat.iterate (scanAdvance res) k (scanAdvance res s)).currentStep ∧
            (scanNext res
              (Nat.iterate (scanAdvance res) k (scanAdvance res s))).1 =
              .ok [] := by
          rcases scanAdvance_cases res s hex with ⟨heq, hflag⟩ |
            ⟨hcur, hstep2, hmaxt, hns2, honce⟩
          · apply ih (scanAdvance res s) _ _ _
            · rw [heq]
              unfold scanMeasure at hm ⊢
              rw [hflag] at hm
              simp only [Bool.false_eq_true, if_false, if_true] at hm ⊢
              omega
            · rw [heq]
              exact hstep
            · rw [heq]
              exact hns
          · apply ih (scanAdvance res s) _ _ _
            · unfold scanMeasure at hm ⊢
              rw [hcur, hmaxt, honce]
              simp only [if_true] at hm ⊢
              have hmul : (1 : Int) * 1 ≤
                  (if s.step = 0 then 1 else s.step) * (s.numSteps : Int) := by
                apply mul_le_mul hstep1 _ _ _
                · exact_mod_cast hns
                · norm_num
                · omega
              rw [one_mul] at hmul
              have h2 : 2 * (s.maxt + 1 - s.currentStep).toNat ≤ m + 1 :=
                le_trans (Nat.le_add_right _ _) hm
              omega
            · rw [hstep2]
              omega
            · rw [hns2]
              exact hns
        obtain ⟨n, hn⟩ := hnext
        refine ⟨n + 1, fun k hk => ?_⟩
        obtain ⟨k2, rfl⟩ : ∃ k2, k = k2 + 1 := ⟨k - 1, by omega⟩
        rw [Function.iterate_succ_apply]
        exact hn k2 (by omega)

/-- C9: for a query window with a nonnegative step and a positive batch
width, repeated `Next` calls terminate — the cursor eventually passes the
end time (zero steps are normalized to 1 on the way), after which every
`Next` returns the exhausted empty result. -/
theorem scan_terminates (res : Except String (List SeriesRef)) (s : ScanState)
    (hstep : 0 ≤ s.step) (hns : 1 ≤ s.numSteps) :
    ∃ n, ∀ k, n ≤ k →
      (Nat.iterate (scanAdvance res) k s).maxt <
          (Nat.iterate (scanAdvance res) k s).currentStep ∧
      (scanNext res (Nat.iterate (scanAdvance res) k s)).1 = .ok [] :=
  scan_terminates_aux res (scanMeasure s) s le_rfl hstep hns

/-- An instant query (step 0) over the window [0, 3]. -/
def termScanState : ScanState := newVectorSelector 0 3 0 300000 0 1

/-- C9 witness: the instant-query scan state, with a step of zero,
terminates. -/
theorem scan_terminates_witness :
    (0 : Int) ≤ termScanState.step ∧ 1 ≤ termScanState.numSteps ∧
    ∃ n, ∀ k, n ≤ k →
      (Nat.iterate (scanAdvance (.ok [])) k termScanState).maxt <
          (Nat.iterate (scanAdvance (.ok [])) k termScanState).currentStep ∧
      (scanNext (.ok [])
        (Nat.iterate (scanAdvance (.ok [])) k termScanState)).1 = .ok [] :=
  ⟨by decide, by decide,
    scan_terminates (.ok []) termScanState (by decide) (by decide)⟩

/-! ## The binary operator's output-series construction -/

/-- `parser.VectorMatchCardinality`. -/
inductive VectorMatchCardinality where
  | CardOneToOne
  | CardManyToOne
  | CardOneToMany
  | CardManyToMany
deriving DecidableEq, Repr

/-- `parser.VectorMatching`. -/
structure VectorMatching where
  Card : VectorMatchCardinality
  MatchingLabels : List String
  On : Bool
  Include : List String
deriving DecidableEq, Repr

/-- `model.Series`: output-local ordinal plus label set. -/
structure MSeries where
  ID : Nat
  Metric : Labels
deriving DecidableEq, Repr

/-- A grouping signature.  The 64-bit grouping hash is modelled as the
hashed label subset itself (a perfect hash): two series group together
exactly when their hashed subsets are equal. -/
abbrev GroupKey := Labels

/-- `signature` from `vector.go`: grouping key plus output labels for one
series.  `HashWithoutLabels` drops the grouping labels and the metric name;
`HashForLabels` keeps exactly the grouping labels; an empty `on` list is
the single universal group (Go returns the literal key 0, here the empty
subset). -/
def signature (metric : Labels) (without : Bool) (grouping : List String)
    (keepOriginalLabels : Bool) : GroupKey × Labels :=
  let delName := metric.filter (fun l => !(l.name == "__name__"))
  if without then
    let dropLabels := grouping ++ ["__name__"]
    let key := metric.filter (fun l => !(dropLabels.contains l.name))
    if !keepOriginalLabels then
      (key, delName.filter (fun l => !(dropLabels.contains l.name)))
    else (key, delName)
  else
    let lbls :=
      if !keepOriginalLabels then
        delName.filter (fun l => grouping.contains l.name)
      else delName
    if grouping = [] then ([], lbls)
    else (metric.filter (fun l => grouping.contains l.name), lbls)

/-- `hashes[sig] = append(hashes[sig], v)` on an association list (Go map
with first-insertion iteration order). -/
def alistAppend {β : Type} :
    List (GroupKey × List β) → GroupKey → β → List (GroupKey × List β)
  | [], k, v => [(k, [v])]
  | e :: rest, k, v =>
      if e.1 = k then (e.1, e.2 ++ [v]) :: rest
      else e :: alistAppend rest k v

/-- Go map lookup. -/
def lookupKey {β : Type} : List (GroupKey × β) → GroupKey → Option β
  | [], _ => none
  | e :: rest, k => if e.1 = k then some e.2 else lookupKey rest k

/-- `hashSeries`: group the input series (as `model.Series` with their
input-local IDs) and, in parallel, the bare input IDs, by grouping
signature. -/
def hashSeriesAux (matchOn : Bool) (grouping : List String) (keepLabels : Bool) :
    Nat → List Labels →
    List (GroupKey × List MSeries) × List (GroupKey × List Nat) →
    List (GroupKey × List MSeries) × List (GroupKey × List Nat)
  | _, [], acc => acc
  | i, s :: rest, acc =>
      let sl := signature s (!matchOn) grouping keepLabels
      hashSeriesAux matchOn grouping keepLabels (i+1) rest
        (alistAppend acc.1 sl.1 ⟨i, sl.2⟩, alistAppend acc.2 sl.1 i)

def hashSeries (matchOn : Bool) (grouping : List String) (keepLabels : Bool)
    (series : List Labels) :
    List (GroupKey × List MSeries) × List (GroupKey × List Nat) :=
  hashSeriesAux matchOn grouping keepLabels 0 series ([], [])

/-- `buildOutputSeries`: the high-cardinality series' labels plus, when
include labels were requested, the include subset of the matched
low-cardinality series — appended to the end without re-sorting
(`metric = append(metric, lowCardLabels...)`). -/
def buildOutputSeries (seriesID : Nat) (highCardSeries lowCardSeries : MSeries)
    (includeLabels : List String) : MSeries :=
  let metric :=
    if 0 < includeLabels.length then
      highCardSeries.Metric ++
        lowCardSeries.Metric.filter (fun l => includeLabels.contains l.name)
    else highCardSeries.Metric
  ⟨seriesID, metric⟩

/-- Bounds-checked slice write; `none` is a Go index-out-of-range panic. -/
def setIdx {α : Type} : List α → Nat → α → Option (List α)
  | [], _, _ => none
  | _ :: l, 0, a => some (a :: l)
  | b :: l, n+1, a => (setIdx l n a).map (fun l2 => b :: l2)

/-- The three results `join` accumulates: the output series, the nullable
high-cardinality reverse index, and the low-cardinality reverse index. -/
structure JoinOut where
  outputIndex : List MSeries
  highCardOutputIndex : List (Option Nat)
  lowCardOutputIndex : List (List Nat)
deriving DecidableEq, Repr

/-- The inner loop of `join`: `for i, output := range highCardSeries`. -/
def joinSeries (highIDs : List Nat) (lowCardSeriesID : Nat)
    (lowCardSeries : MSeries) (includeLabels : List String) :
    Nat → List MSeries → JoinOut → Option JoinOut
  | _, [], st => some st
  | i, output :: rest, st =>
      let outputSeries :=
        buildOutputSeries st.outputIndex.length output lowCardSeries
          includeLabels
      match highIDs.get? i with
      | none => none
      | some highCardSeriesID =>
          match setIdx st.highCardOutputIndex highCardSeriesID
              (some outputSeries.ID) with
          | none => none
          | some highIdx =>
              match st.lowCardOutputIndex.get? lowCardSeriesID with
              | none => none
              | some cur =>
                  match setIdx st.lowCardOutputIndex lowCardSeriesID
                      (cur ++ [outputSeries.ID]) with
                  | none => none
                  | some lowIdx =>
                      joinSeries highIDs lowCardSeriesID lowCardSeries
                        includeLabels (i+1) rest
                        { outputIndex := st.outputIndex ++ [outputSeries],
                          highCardOutputIndex := highIdx,
                          lowCardOutputIndex := lowIdx }

/-- The outer loop of `join` over the surviving high-cardinality groups. -/
def joinGroups (lowHashes : List (GroupKey × List MSeries))
    (lowInputIndex highInputIndex : List (GroupKey × List Nat))
    (includeLabels : List String) :
    List (GroupKey × List MSeries) → JoinOut → Option JoinOut
  | [], st => some st
  | (hash, highCardSeries) :: rest, st =>
      match lookupKey lowInputIndex hash with
      | none => none
      | some lowIDs =>
          match lowIDs.head? with
          | none => none
          | some lowCardSeriesID =>
              match lookupKey lowHashes hash with
              | none => none
              | some lowSeriesList =>
                  match lowSeriesList.head? with
                  | none => none
                  | some lowCardSeries =>
                      match lookupKey highInputIndex hash with
                      | none => none
                      | some highIDs =>
                          match setIdx st.lowCardOutputIndex lowCardSeriesID
                              [] with
                          | none => none
                          | some lowIdx0 =>
                              match joinSeries highIDs lowCardSeriesID
                                  lowCardSeries includeLabels 0 highCardSeries
                                  { st with lowCardOutputIndex := lowIdx0 } with
                              | none => none
                              | some st2 =>
                                  joinGroups lowHashes lowInputIndex
                                    highInputIndex includeLabels rest st2

/-- `join` from `vector.go`: `outputSize` sums ALL high-cardinality group
sizes (the `+=` runs before the prune check), the pruning keeps the groups
whose signature exists on the low-cardinality side, and the low-cardinality
reverse index is allocated with one slot per DISTINCT low-cardinality
grouping signature (`len(lowCardInputIndex)` is the size of a map). -/
def join (highHashes : List (GroupKey × List MSeries))
    (highInputIndex : List (GroupKey × List Nat))
    (lowHashes : List (GroupKey × List MSeries))
    (lowInputIndex : List (GroupKey × List Nat))
    (includeLabels : List String) : Option JoinOut :=
  let outputSize := (highHashes.map (fun e => e.2.length)).sum
  let surviving :=
    highHashes.filter (fun e => (lookupKey lowHashes e.1).isSome)
  joinGroups lowHashes lowInputIndex highInputIndex includeLabels surviving
    { outputIndex := [],
      highCardOutputIndex := List.replicate outputSize none,
      lowCardOutputIndex := List.replicate lowInputIndex.length [] }

/-- `initOutputs` side selection (lines 96–98 of `vector.go`): `lhs` is the
high-cardinality side and `rhs` the low-cardinality side, swapped only for
the one-to-many cardinality class. -/
def selectSides (card : VectorMatchCardinality)
    (lhsSeries rhsSeries : List Labels) : List Labels × List Labels :=
  if card = .CardOneToMany then (rhsSeries, lhsSeries)
  else (lhsSeries, rhsSeries)

/-- `keepLabels := o.matching.Card != parser.CardOneToOne`. -/
def joinKeepLabels (matching : VectorMatching) : Bool :=
  matching.Card ≠ .CardOneToOne

/-- The grouping signature `initOutputs` computes for one series. -/
def groupKey (matching : VectorMatching) (groupingLabels : List String)
    (metric : Labels) : GroupKey :=
  (signature metric (!matching.On) groupingLabels (joinKeepLabels matching)).1

/-- The join-construction portion of `initOutputs`: side selection,
hashing of both sides, and the join.  (The output cache and join-table
wiring that follow contribute nothing to the claims below.) -/
def initOutputSeries (matching : VectorMatching)
    (groupingLabels : List String) (lhsSeries rhsSeries : List Labels) :
    Option JoinOut :=
  let sides := selectSides matching.Card lhsSeries rhsSeries
  let includeLabels := matching.Include
  let keepLabels : Bool := joinKeepLabels matching
  let high := hashSeries matching.On groupingLabels keepLabels sides.1
  let low := hashSeries matching.On groupingLabels keepLabels sides.2
  join high.1 high.2 low.1 low.2 includeLabels

/-- C4 counterexample: under the many-to-one cardinality class the two
children's series sets are NOT swapped — the high-cardinality side stays
`lhs`.  (The swap happens for one-to-many instead.) -/
theorem manyToOne_sides_not_swapped :
    ¬ (selectSides .CardManyToOne [[⟨"a", "1"⟩]] [] =
        ([], [[⟨"a", "1"⟩]])) := by decide

/-- C4 (amended): side swapping happens exactly for the one-to-many
cardinality class, which is what keeps the "one" side — `rhs` under
many-to-one, `lhs` under one-to-many — in the low-cardinality role. -/
theorem selectSides_one_side_low (lhsSeries rhsSeries : List Labels) :
    selectSides .CardOneToMany lhsSeries rhsSeries = (rhsSeries, lhsSeries) ∧
    selectSides .CardManyToOne lhsSeries rhsSeries = (lhsSeries, rhsSeries) ∧
    selectSides .CardOneToOne lhsSeries rhsSeries = (lhsSeries, rhsSeries) ∧
    (selectSides .CardManyToOne lhsSeries rhsSeries).2 = rhsSeries ∧
    (selectSides .CardOneToMany lhsSeries rhsSeries).2 = lhsSeries :=
  ⟨rfl, rfl, rfl, rfl, rfl⟩

/-- C2: with `on("x")`, one-to-one, lhs `{x="2"}` and rhs
`{x="1"}, {x="1"}, {x="2"}`, the low-cardinality reverse index is allocated
with 2 slots (two distinct signatures) but written at input series ID 2 —
an index-out-of-range panic, modelled as `none`. -/
theorem join_low_index_out_of_bounds :
    initOutputSeries ⟨.CardOneToOne, ["x"], true, []⟩ ["x"]
      [[⟨"__name__", "a"⟩, ⟨"x", "2"⟩]]
      [[⟨"__name__", "b"⟩, ⟨"x", "1"⟩], [⟨"__name__", "c"⟩, ⟨"x", "1"⟩],
        [⟨"__name__", "d"⟩, ⟨"x", "2"⟩]] = none := by rfl

/-- The output-series set the C8 input produces. -/
def c8Out : JoinOut :=
  { outputIndex := [⟨0, [⟨"b", "1"⟩, ⟨"j", "x"⟩, ⟨"a", "2"⟩]⟩],
    highCardOutputIndex := [some 0],
    lowCardOutputIndex := [[0]] }

/-- C8: a many-to-one join `on("j") group_left("a")` of lhs
`{__name__="m", b="1", j="x"}` with rhs `{__name__="n", a="2", j="x"}`
produces the output label list `[b="1", j="x", a="2"]`, which is NOT sorted
by label name: `buildOutputSeries` appends the include labels without
re-sorting. -/
theorem output_labels_unsorted :
    initOutputSeries ⟨.CardManyToOne, ["j"], true, ["a"]⟩ ["j"]
      [[⟨"__name__", "m"⟩, ⟨"b", "1"⟩, ⟨"j", "x"⟩]]
      [[⟨"__name__", "n"⟩, ⟨"a", "2"⟩, ⟨"j", "x"⟩]] = some c8Out ∧
    c8Out.outputIndex.all (fun s => labelsSorted s.Metric) = false :=
  ⟨rfl, by decide⟩

/-! ## C10: index pairing and surplus handling in the binary Next loop -/

theorem drop_eq_cons_of_getq {α : Type} (l : List α) (i : Nat) (a : α)
    (h : l.get? i = some a) : l.drop i = a :: l.drop (i+1) := by
  induction l generalizing i with
  | nil => simp at h
  | cons b l ih =>
      cases i with
      | zero =>
          simp at h
          subst h
          simp
      | succ n => simpa using ih n (by simpa using h)

theorem binaryNextLoopAux_spec (exec : StepVector → StepVector → StepVector)
    (rhs : List StepVector) :
    ∀ (lhsRest : List StepVector) (i : Nat)
      (acc : List StepVector × List StepVector × List StepVector),
      binaryNextLoopAux exec rhs i lhsRest acc =
        (acc.1 ++ List.zipWith exec lhsRest (rhs.drop i),
          acc.2.1 ++ lhsRest,
          acc.2.2 ++ (rhs.drop i).take lhsRest.length) := by
  intro lhsRest
  induction lhsRest with
  | nil =>
      intro i acc
      simp [binaryNextLoopAux]
  | cons v rest ih =>
      intro i acc
      cases hg : rhs.get? i with
      | some rv =>
          have hdrop := drop_eq_cons_of_getq rhs i rv hg
          obtain ⟨b, lp, rp⟩ := acc
          simp only [binaryNextLoopAux, hg, ih, hdrop]
          simp
      | none =>
          have hlen : rhs.length ≤ i := by
            rw [← List.get?_eq_none]
            exact hg
          have hdrop : rhs.drop i = [] := List.drop_eq_nil_of_le hlen
          have hdrop2 : rhs.drop (i+1) = [] :=
            List.drop_eq_nil_of_le (by omega)
          obtain ⟨b, lp, rp⟩ := acc
          simp only [binaryNextLoopAux, hg, ih, hdrop, hdrop2]
          simp

theorem binaryNextLoop_spec (exec : StepVector → StepVector → StepVector)
    (lhs rhs : List StepVector) :
    binaryNextLoop exec lhs rhs =
      (List.zipWith exec lhs rhs, lhs, rhs.take lhs.length) := by
  unfold binaryNextLoop
  rw [binaryNextLoopAux_spec]
  simp

/-- C10: when both children return non-empty batches, `Next` succeeds with
exactly `min(len lhs, len rhs)` output step vectors, pairing child vectors
by batch index only (`zipWith`); every lhs vector — the surplus of the
longer lhs batch included — is released back to the lhs pool, and no error
is reported for the length mismatch. -/
theorem binary_next_min_pairing (exec : StepVector → StepVector → StepVector)
    (ls rs : List (Except String (List StepVector)))
    (lhs rhs : List StepVector) (h1 : lhs ≠ []) (h2 : rhs ≠ []) :
    (binaryNextStream exec (.ok ()) (.ok lhs :: ls) (.ok rhs :: rs)).1 =
        .ok (List.zipWith exec lhs rhs) ∧
    (List.zipWith exec lhs rhs).length = min lhs.length rhs.length ∧
    (binaryNextLoop exec lhs rhs).2.1 = lhs := by
  refine ⟨?_, by simp, by rw [binaryNextLoop_spec]⟩
  unfold binaryNextStream
  simp only [List.headD_cons]
  rw [if_neg (by
    rintro (h | h)
    · exact h1 (List.length_eq_zero.1 h)
    · exact h2 (List.length_eq_zero.1 h))]
  rw [binaryNextLoop_spec]

/-- C10 witness: a one-vector lhs batch against a two-vector rhs batch. -/
theorem binary_next_min_pairing_witness :
    ([getStepVector 0] : List StepVector) ≠ [] ∧
    ([getStepVector 0, getStepVector 5] : List StepVector) ≠ [] ∧
    ((binaryNextStream (fun a _ => a) (.ok ())
          [.ok [getStepVector 0]]
          [.ok [getStepVector 0, getStepVector 5]]).1 =
        .ok (List.zipWith (fun a _ => a) [getStepVector 0]
          [getStepVector 0, getStepVector 5]) ∧
      (List.zipWith (fun a _ => a) [getStepVector 0]
          [getStepVector 0, getStepVector 5]).length =
        min ([getStepVector 0] : List StepVector).length
          ([getStepVector 0, getStepVector 5] : List StepVector).length ∧
      (binaryNextLoop (fun a _ => a) [getStepVector 0]
          [getStepVector 0, getStepVector 5]).2.1 = [getStepVector 0]) :=
  ⟨by decide, by decide,
    binary_next_min_pairing (fun a _ => a) [] [] [getStepVector 0]
      [getStepVector 0, getStepVector 5] (by decide) (by decide)⟩

/-! ## C6: density of the join's output series IDs -/

theorem buildOutputSeries_ID (seriesID : Nat) (h l : MSeries)
    (inc : List String) : (buildOutputSeries seriesID h l inc).ID = seriesID :=
  rfl

theorem joinSeries_some_ids (highIDs : List Nat) (lowID : Nat)
    (lowS : MSeries) (inc : List String) :
    ∀ (lst : List MSeries) (i : Nat) (st st2 : JoinOut),
      joinSeries highIDs lowID lowS inc i lst st = some st2 →
      st.outputIndex.map (fun s => s.ID) = List.range st.outputIndex.length →
      (st2.outputIndex.map (fun s => s.ID) =
          List.range st2.outputIndex.length ∧
        st2.outputIndex.length = st.outputIndex.length + lst.length) := by
  intro lst
  induction lst with
  | nil =>
      intro i st st2 h hids
      unfold joinSeries at h
      injection h with h
      subst h
      exact ⟨hids, by simp⟩
  | cons output rest ih =>
      intro i st st2 h hids
      unfold joinSeries at h
      dsimp only at h
      split at h
      · exact Option.noConfusion h
      · split at h
        · exact Option.noConfusion h
        · split at h
          · exact Option.noConfusion h
          · split at h
            · exact Option.noConfusion h
            · have hres := ih (i+1) _ st2 h (by
                dsimp only
                simp only [List.map_append, List.length_append, List.map_cons,
                  List.map_nil, List.length_cons, List.length_nil]
                rw [hids, buildOutputSeries_ID]
                rw [← List.range_succ])
              refine ⟨hres.1, ?_⟩
              rw [hres.2]
              dsimp only
              simp only [List.length_append, List.length_cons, List.length_nil]
              omega

theorem joinGroups_some_ids (lowHashes : List (GroupKey × List MSeries))
    (lowIdx highIdx : List (GroupKey × List Nat)) (inc : List String) :
    ∀ (groups : List (GroupKey × List MSeries)) (st st2 : JoinOut),
      joinGroups lowHashes lowIdx highIdx inc groups st = some st2 →
      st.outputIndex.map (fun s => s.ID) = List.range st.outputIndex.length →
      (st2.outputIndex.map (fun s => s.ID) =
          List.range st2.outputIndex.length ∧
        st2.outputIndex.length =
          st.outputIndex.length +
            (groups.map (fun e => e.2.length)).sum) := by
  intro groups
  induction groups with
  | nil =>
      intro st st2 h hids
      unfold joinGroups at h
      injection h with h
      subst h
      exact ⟨hids, by simp⟩
  | cons g rest ih =>
      intro st st2 h hids
      obtain ⟨hash, highCardSeries⟩ := g
      unfold joinGroups at h
      split at h
      · exact Option.noConfusion h
      · split at h
        · exact Option.noConfusion h
        · split at h
          · exact Option.noConfusion h
          · split at h
            · exact Option.noConfusion h
            · split at h
              · exact Option.noConfusion h
              · split at h
                · exact Option.noConfusion h
                · split at h
                  · exact Option.noConfusion h
                  · rename_i stMid hmid
                    have hsr := joinSeries_some_ids _ _ _ _ highCardSeries 0 _
                      stMid hmid (by dsimp only; exact hids)
                    have hrest := ih stMid st2 h hsr.1
                    refine ⟨hrest.1, ?_⟩
                    rw [hrest.2, hsr.2]
                    dsimp only
                    simp only [List.map_cons, List.sum_cons]
                    omega

/-- Total size of the groups whose key satisfies `P`. -/
def sumFilter (P : GroupKey → Bool) : List (GroupKey × List MSeries) → Nat
  | [] => 0
  | e :: rest => (if P e.1 then e.2.length else 0) + sumFilter P rest

theorem sumFilter_filter (P : GroupKey → Bool)
    (m : List (GroupKey × List MSeries)) :
    ((m.filter (fun e => P e.1)).map (fun e => e.2.length)).sum =
      sumFilter P m := by
  induction m with
  | nil => rfl
  | cons e rest ih =>
      unfold sumFilter
      by_cases hp : P e.1
      · simp [List.filter_cons, hp, ih]
      · simp [List.filter_cons, hp, ih]

theorem sumFilter_alistAppend (P : GroupKey → Bool)
    (m : List (GroupKey × List MSeries)) (k : GroupKey) (v : MSeries) :
    sumFilter P (alistAppend m k v) =
      sumFilter P m + (if P k then 1 else 0) := by
  induction m with
  | nil => by_cases hp : P k <;> simp [alistAppend, sumFilter, hp]
  | cons e rest ih =>
      unfold alistAppend
      by_cases hk : e.1 = k
      · rw [if_pos hk]
        unfold sumFilter
        rw [hk]
        by_cases hp : P k
        · simp [hp]
          try omega
        · simp [hp]
          try omega
      · rw [if_neg hk]
        unfold sumFilter
        rw [ih]
        omega

theorem sumFilter_hashSeriesAux (matchOn : Bool) (grouping : List String)
    (keepLabels : Bool) (P : GroupKey → Bool) :
    ∀ (series : List Labels) (i : Nat)
      (acc : List (GroupKey × List MSeries) × List (GroupKey × List Nat)),
      sumFilter P (hashSeriesAux matchOn grouping keepLabels i series acc).1 =
        sumFilter P acc.1 +
          (series.filter (fun s =>
            P (signature s (!matchOn) grouping keepLabels).1)).length := by
  intro series
  induction series with
  | nil =>
      intro i acc
      simp [hashSeriesAux, sumFilter]
  | cons s rest ih =>
      intro i acc
      unfold hashSeriesAux
      dsimp only
      rw [ih, sumFilter_alistAppend, List.filter_cons]
      by_cases hp : P (signature s (!matchOn) grouping keepLabels).1
      · simp [hp]
        try omega
      · simp [hp]

theorem lookupKey_alistAppend {β : Type} (m : List (GroupKey × List β))
    (k k2 : GroupKey) (v : β) :
    (lookupKey (alistAppend m k v) k2).isSome =
      (decide (k2 = k) || (lookupKey m k2).isSome) := by
  induction m with
  | nil =>
      by_cases h : k = k2
      · subst h
        simp [alistAppend, lookupKey]
      · have h2 : ¬ k2 = k := fun hh => h hh.symm
        simp [alistAppend, lookupKey, h, h2]
  | cons e rest ih =>
      unfold alistAppend
      by_cases hk : e.1 = k
      · rw [if_pos hk]
        by_cases h2 : e.1 = k2
        · have hkk : k2 = k := h2.symm.trans hk
          simp [lookupKey, h2, hkk]
        · have hkk : ¬ k2 = k := fun hh => h2 (hk.trans hh.symm)
          simp [lookupKey, h2, hkk]
      · rw [if_neg hk]
        by_cases h2 : e.1 = k2
        · simp [lookupKey, h2]
        · simp [lookupKey, h2, ih]

theorem lookupKey_hashSeriesAux (matchOn : Bool) (grouping : List String)
    (keepLabels : Bool) (k : GroupKey) :
    ∀ (series : List Labels) (i : Nat)
      (acc : List (GroupKey × List MSeries) × List (GroupKey × List Nat)),
      (lookupKey (hashSeriesAux matchOn grouping keepLabels i series acc).1
          k).isSome =
        ((lookupKey acc.1 k).isSome ||
          series.any (fun s =>
            decide ((signature s (!matchOn) grouping keepLabels).1 = k))) := by
  intro series
  induction series with
  | nil =>
      intro i acc
      simp [hashSeriesAux]
  | cons s rest ih =>
      intro i acc
      unfold hashSeriesAux
      dsimp only
      rw [ih, lookupKey_alistAppend, List.any_cons]
      have hsymm : decide (k = (signature s (!matchOn) grouping keepLabels).1) =
          decide ((signature s (!matchOn) grouping keepLabels).1 = k) := by
        by_cases h : k = (signature s (!matchOn) grouping keepLabels).1
        · simp [h]
        · have h2 : ¬ (signature s (!matchOn) grouping keepLabels).1 = k :=
            fun hh => h hh.symm
          simp [h, h2]
      rw [hsymm]
      cases (lookupKey acc.1 k).isSome <;>
        cases decide ((signature s (!matchOn) grouping keepLabels).1 = k) <;>
        simp

/-- The pruning count: the total size of the high-cardinality groups whose
signature occurs on the low side equals the number of high-cardinality input
series whose signature some low-cardinality series shares. -/
theorem matched_count (matching : VectorMatching)
    (groupingLabels : List String) (highSide lowSide : List Labels) :
    sumFilter (fun k =>
        (lookupKey (hashSeries matching.On groupingLabels
            (joinKeepLabels matching) lowSide).1 k).isSome)
      (hashSeries matching.On groupingLabels (joinKeepLabels matching)
        highSide).1 =
      (highSide.filter (fun hs => lowSide.any (fun ls =>
        decide (groupKey matching groupingLabels ls =
          groupKey matching groupingLabels hs)))).length := by
  unfold hashSeries
  rw [sumFilter_hashSeriesAux]
  simp only [sumFilter, Nat.zero_add]
  congr 1
  apply List.filter_congr
  intro hs _
  dsimp only
  rw [lookupKey_hashSeriesAux]
  simp only [lookupKey, Bool.false_or]
  rfl

/-- C6: whenever the join completes, the output series IDs form exactly the
dense zero-based range `0..n-1`, with `n` the number of high-cardinality
input series whose grouping signature occurs on the low-cardinality side. -/
theorem join_output_ids_dense (matching : VectorMatching)
    (groupingLabels : List String) (lhsSeries rhsSeries : List Labels)
    (out : JoinOut)
    (h : initOutputSeries matching groupingLabels lhsSeries rhsSeries =
      some out) :
    out.outputIndex.map (fun s => s.ID) = List.range out.outputIndex.length ∧
    out.outputIndex.length =
      ((selectSides matching.Card lhsSeries rhsSeries).1.filter (fun hs =>
        (selectSides matching.Card lhsSeries rhsSeries).2.any (fun ls =>
          decide (groupKey matching groupingLabels ls =
            groupKey matching groupingLabels hs)))).length := by
  unfold initOutputSeries at h
  dsimp only at h
  unfold join at h
  dsimp only at h
  have hmain := joinGroups_some_ids _ _ _ _ _ _ _ h (by simp)
  refine ⟨hmain.1, ?_⟩
  rw [hmain.2]
  dsimp only
  rw [sumFilter_filter (fun k =>
    (lookupKey (hashSeries matching.On groupingLabels
        (joinKeepLabels matching)
        (selectSides matching.Card lhsSeries rhsSeries).2).1 k).isSome)]
  rw [matched_count]
  simp

/-- A one-series-each one-to-one join `on("x")` whose two sides match. -/
def c6Out : JoinOut :=
  { outputIndex := [⟨0, [⟨"x", "1"⟩]⟩],
    highCardOutputIndex := [some 0],
    lowCardOutputIndex := [[0]] }

/-- C6 witness: concrete one-to-one join with a single matched pair. -/
theorem join_output_ids_dense_witness :
    initOutputSeries ⟨.CardOneToOne, ["x"], true, []⟩ ["x"]
        [[⟨"x", "1"⟩]] [[⟨"x", "1"⟩]] = some c6Out ∧
    (c6Out.outputIndex.map (fun s => s.ID) =
        List.range c6Out.outputIndex.length ∧
      c6Out.outputIndex.length =
        ((selectSides VectorMatchCardinality.CardOneToOne [[⟨"x", "1"⟩]]
            [[⟨"x", "1"⟩]]).1.filter (fun hs =>
          (selectSides VectorMatchCardinality.CardOneToOne [[⟨"x", "1"⟩]]
              [[⟨"x", "1"⟩]]).2.any (fun ls =>
            decide (groupKey ⟨.CardOneToOne, ["x"], true, []⟩ ["x"] ls =
              groupKey ⟨.CardOneToOne, ["x"], true, []⟩ ["x"] hs)))).length) :=
  ⟨rfl,
    join_output_ids_dense ⟨.CardOneToOne, ["x"], true, []⟩ ["x"]
      [[⟨"x", "1"⟩]] [[⟨"x", "1"⟩]] c6Out rfl⟩

end PromqlEngine
